import Mathlib

/-!
Verification of the listing image scraper pipeline.

Shallow embedding of `listing_image_scraper.py`.  Strings are modelled as
`List Char`.  Python's unbounded integers are `Nat` (no counter overflows).
Effectful operations (`download_image`, `process_listing`) are modelled as
pure functions over an explicit environment describing the outcomes of the
network and filesystem operations they perform, returning the new statistics,
the new set of files on disk, and a trace of the calls they made.

Regex-based operations (`re.sub`, `re.findall`) are translated as
deterministic left-to-right scanners that implement the exact matching
semantics of the concrete patterns used by the source (`s-l\d+`, `\?.*$`,
`"imageUrl"\s*:\s*"([^"]+)"`), restricted to ASCII digit/whitespace classes.
-/

namespace Scraper

/-! ## `normalize_image_url` (lines 142-156)

`re.sub(r's-l\d+', 's-l1600', url)` scans left to right; at each position a
match requires the literal `s-l` followed by at least one digit; the greedy
digit run is consumed and the whole match is replaced by `s-l1600`, scanning
resuming after the match; on failure the scanner advances one character.
`subSLGo` implements this scan; the `skip` flag is true while the digit run
of a just-replaced match is still being consumed. -/

def subSLGo : Bool → List Char → List Char
  | _, [] => []
  | skip, a :: b :: c :: d :: r2 =>
    if skip ∧ a.isDigit then subSLGo true (b :: c :: d :: r2)
    else if a = 's' ∧ b = '-' ∧ c = 'l' ∧ d.isDigit then
      's' :: '-' :: 'l' :: '1' :: '6' :: '0' :: '0' :: subSLGo true r2
    else a :: subSLGo false (b :: c :: d :: r2)
  | skip, a :: rest =>
    if skip ∧ a.isDigit then subSLGo true rest
    else a :: subSLGo false rest

/-- The `s-l<digits> → s-l1600` rewrite of `normalize_image_url`. -/
def subSL (l : List Char) : List Char := subSLGo false l

/-- Semantics of `re.sub(r'\?.*$', '', url)`: `.` does not match a newline and `$` matches
at the end of the string or just before a trailing newline, so the removed
region runs from the first `?` located after the last (non-trailing) newline
up to the end.  `stripCore` keeps everything up to and including the last
newline of its argument and truncates the final segment at its first `?`. -/
def stripCore : List Char → List Char
  | [] => []
  | c :: cs =>
    if c = '\n' ∨ '\n' ∈ cs then c :: stripCore cs
    else (c :: cs).takeWhile (fun x => x ≠ '?')

/-- The query-string-stripping rewrite of `normalize_image_url`
(`re.sub(r'\?.*$', '', url)`), including the trailing-newline behaviour of
`$`. -/
def stripQuery (s : List Char) : List Char :=
  match s.getLast? with
  | some '\n' => stripCore s.dropLast ++ ['\n']
  | _ => stripCore s

/-- Model of `normalize_image_url` (lines 142-156): collapse `s-l<digits>` resolution
tokens to `s-l1600`, then strip the query string. -/
def normalize_image_url (url : List Char) : List Char :=
  stripQuery (subSL url)

/-! ## `sanitize_filename` (lines 95-116) -/

/-- Value of `valid_chars = "-_.() %s%s" % (string.ascii_letters, string.digits)`. -/
def validChars : List Char :=
  ("-_.() abcdefghijklmnopqrstuvwxyzABCDEFGHIJKLMNOPQRSTUVWXYZ0123456789").toList

/-- Model of `sanitize_filename` (lines 95-116): keep only `valid_chars`, replace
spaces by underscores, and truncate to `97` characters plus a `...` marker
when the result is longer than `100` characters. -/
def sanitize_filename (name : List Char) : List Char :=
  let sanitized := name.filter (fun c => c ∈ validChars)
  let sanitized := sanitized.map (fun c => if c = ' ' then '_' else c)
  if sanitized.length > 100 then sanitized.take 97 ++ ['.', '.', '.']
  else sanitized

/-- The character set `[A-Za-z0-9_.()-]` that claim C3 allows in sanitizer
output (note: no space). -/
def allowedChars : List Char :=
  ("-_.()abcdefghijklmnopqrstuvwxyzABCDEFGHIJKLMNOPQRSTUVWXYZ0123456789").toList

/-! ## Deduplication keyed on the normalized URL (lines 311-318, 391-398)

```
normalized_urls = {}
for url in image_urls:
    norm_url = normalize_image_url(url)
    if norm_url not in normalized_urls:
        normalized_urls[norm_url] = url
image_urls = list(normalized_urls.values())
```
A Python `dict` preserves key-insertion order, so the fold below carries the
inserted keys and the kept values in insertion order. -/

def dedupByNorm (urls : List (List Char)) : List (List Char) :=
  (urls.foldl
    (fun (acc : List (List Char) × List (List Char)) u =>
      let k := normalize_image_url u
      if k ∈ acc.1 then acc else (acc.1 ++ [k], acc.2 ++ [u]))
    ([], [])).2

/-! ## Global statistics (lines 44-50)

Python integers are unbounded, so the four counters are `Nat`. -/

structure Stats where
  successful_listings : Nat
  failed_listings : Nat
  successful_images : Nat
  failed_images : Nat
  deriving DecidableEq

/-! ## `download_image` (lines 158-241)

The network and filesystem effects of one call are described by a
`DownloadEnv`: the outcome of the streamed GET (an exception, or a response
carrying a `Content-Type` header), whether writing the file raises, and
whether the PIL JPEG re-encode block succeeds.  The random pacing delay, the
rotated headers and the retrying session only shape the single GET and are
not observable in the function's result.  The filesystem is the list of
existing file paths; `requests` counts the GET requests issued by the call
(the `session.get` on line 182 is reached on every path, before the
existence check on line 210). -/

structure ImageResponse where
  /-- Value of `response.headers.get('Content-Type', '')`. -/
  contentType : List Char
  deriving DecidableEq

inductive Fetch where
  /-- Either `session.get` or `raise_for_status` raised. -/
  | err : Fetch
  | ok (resp : ImageResponse) : Fetch
  deriving DecidableEq

structure DownloadEnv where
  fetch : Fetch
  /-- the `open`/`f.write` block (lines 215-217) does not raise. -/
  writeOk : Bool
  /-- the JPEG conversion block (lines 221-230) does not raise. -/
  convertOk : Bool

/-- Result of one `download_image` call: the returned boolean, the updated
counters and filesystem, the number of GET requests issued, and the target
path `file_path` computed on line 207 (`none` when the call failed before
computing it). -/
structure DlResult where
  ok : Bool
  stats : Stats
  fs : List (List Char)
  requests : Nat
  target : Option (List Char)
  deriving DecidableEq

/-- Decimal rendering of an index, as Python's f-string interpolation. -/
def natStr (n : Nat) : List Char := (Nat.repr n).toList

/-- Model of `os.path.join(folder, name)` for a relative `name`. -/
def pathJoin (folder name : List Char) : List Char := folder ++ '/' :: name

/-- Extension selection from the content type (lines 193-203); the source
uses Python's substring containment `in`. -/
def extFor (ct : List Char) : List Char :=
  if "image/jpeg".toList <:+: ct ∨ "image/jpg".toList <:+: ct then ".jpg".toList
  else if "image/png".toList <:+: ct then ".png".toList
  else if "image/webp".toList <:+: ct then ".webp".toList
  else if "image/gif".toList <:+: ct then ".gif".toList
  else ".jpg".toList

/-- Model of `download_image(url, folder_path, filename, index)` (lines 158-241).
Every branch has issued exactly one GET; an exception on any step is caught
by the enclosing `except`, counted as a failed image and reported as
`false`.  A pre-existing target file returns `true` on line 212 without
touching the filesystem or the counters.  On a successful write of a
non-JPEG image the conversion block saves `{filename}_{index}.jpg` and
removes the intermediate file; a conversion failure keeps the original file
and is non-fatal. -/
def download_image (env : DownloadEnv) (url folderPath filename : List Char)
    (index : Nat) (st : Stats) (fs : List (List Char)) : DlResult :=
  match env.fetch with
  | .err =>
    ⟨false, { st with failed_images := st.failed_images + 1 }, fs, 1, none⟩
  | .ok resp =>
    if ¬ ("image/".toList.isPrefixOf resp.contentType) then
      ⟨false, { st with failed_images := st.failed_images + 1 }, fs, 1, none⟩
    else
      let ext := extFor resp.contentType
      let filePath := pathJoin folderPath (filename ++ '_' :: natStr index ++ ext)
      if filePath ∈ fs then
        ⟨true, st, fs, 1, some filePath⟩
      else if env.writeOk = false then
        ⟨false, { st with failed_images := st.failed_images + 1 }, fs, 1, some filePath⟩
      else
        let fs1 := filePath :: fs
        if ext ≠ ".jpg".toList then
          if env.convertOk then
            let jpgPath := pathJoin folderPath (filename ++ '_' :: natStr index ++ ".jpg".toList)
            ⟨true, { st with successful_images := st.successful_images + 1 },
              jpgPath :: fs1.filter (fun p => p ≠ filePath), 1, some filePath⟩
          else
            ⟨true, { st with successful_images := st.successful_images + 1 }, fs1, 1, some filePath⟩
        else
          ⟨true, { st with successful_images := st.successful_images + 1 }, fs1, 1, some filePath⟩

/-! ## Site extractors (lines 243-408)

A fetched-and-parsed listing page is modelled by the attribute values the
BeautifulSoup selectors of the source produce; `none` for the whole page
models an exception raised while fetching or parsing the page, caught by the
enclosing `try` (lines 322-324 and 406-408). -/

/-- Python ASCII whitespace, for `str.strip()` and the regex class `\s`. -/
def isPySpace (c : Char) : Bool := c ∈ [' ', '\t', '\n', '\r', '\x0b', '\x0c']

/-- Python `str.strip()`. -/
def pyStrip (s : List Char) : List Char :=
  ((s.dropWhile isPySpace).reverse.dropWhile isPySpace).reverse

/-- One attempted match of `"imageUrl"\s*:\s*"([^"]+)"` at the head of `s`:
the literal `"imageUrl"`, optional whitespace, `:`, optional whitespace, a
quoted non-empty capture.  Returns the capture and the remainder after the
closing quote. -/
def matchImageUrlAt (s : List Char) : Option (List Char × List Char) :=
  if ("\"imageUrl\"").toList.isPrefixOf s then
    match (s.drop 10).dropWhile isPySpace with
    | ':' :: r2 =>
      match r2.dropWhile isPySpace with
      | '"' :: r4 =>
        match r4.takeWhile (fun x => x ≠ '"'), r4.dropWhile (fun x => x ≠ '"') with
        | cap@(_ :: _), '"' :: r5 => some (cap, r5)
        | _, _ => none
      | _ => none
    | _ => none
  else none

/-- Model of `re.findall(r'"imageUrl"\s*:\s*"([^"]+)"', s)` (line 282): left-to-right
non-overlapping scan; on a failed attempt the scanner advances one
character.  Every step consumes at least one character, so fuel `s.length`
is sufficient. -/
def findImageUrlsF : Nat → List Char → List (List Char)
  | 0, _ => []
  | _, [] => []
  | fuel + 1, c :: cs =>
    match matchImageUrlAt (c :: cs) with
    | some (cap, rest) => cap :: findImageUrlsF fuel rest
    | none => findImageUrlsF fuel cs

def findImageUrls (s : List Char) : List (List Char) := findImageUrlsF s.length s

/-- Python `s.replace(old, new)`: replace all non-overlapping occurrences,
left to right.  The patterns used by the source are non-empty, so fuel
`s.length` is sufficient. -/
def pyReplaceF : Nat → List Char → List Char → List Char → List Char
  | 0, s, _, _ => s
  | _, [], _, _ => []
  | fuel + 1, c :: cs, old, new =>
    if old.isPrefixOf (c :: cs) then new ++ pyReplaceF fuel ((c :: cs).drop old.length) old new
    else c :: pyReplaceF fuel cs old new

def pyReplace (s old new : List Char) : List Char := pyReplaceF s.length s old new

/-- The parsed eBay listing page (what the selectors of lines 263-309 see). -/
structure EbayPage where
  /-- Text of `soup.select_one('h1.x-item-title__mainTitle span')`. -/
  titleMain : Option (List Char)
  /-- Text of `soup.select_one('title')`. -/
  titleTag : Option (List Char)
  /-- Value of `int(time.time())` for the synthesized fallback title. -/
  time : Nat
  /-- Content `.string` of each `script[type='text/javascript']` tag. -/
  scripts : List (Option (List Char))
  /-- The `src` attribute (default `''`) of each `div.ux-image-carousel-item img`. -/
  carouselSrcs : List (List Char)
  /-- The `content` attribute of `meta[property="og:image"]`; `none` when the tag
  or the attribute is absent. -/
  ogImage : Option (List Char)
  /-- The `src` attributes of the images under `div#vi_main_img_fs`, `none` when
  that container is absent. -/
  mainContentImgs : Option (List (List Char))

/-- Title extraction for eBay (lines 263-272). -/
def ebayTitle (p : EbayPage) : List Char :=
  match p.titleMain with
  | some t => pyStrip t
  | none =>
    match p.titleTag with
    | some t => pyStrip (t.takeWhile (fun c => c ≠ '|'))
    | none => "eBay_Item_".toList ++ natStr p.time

/-- Strategy 1 (lines 278-283): regex scan of the script tags. -/
def ebayMethod1 (p : EbayPage) : List (List Char) :=
  p.scripts.foldl
    (fun acc s? =>
      match s? with
      | some s => if "imageUrl".toList <:+: s then acc ++ findImageUrls s else acc
      | none => acc)
    []

/-- Strategy 2 (lines 286-293): carousel images, low-resolution thumbnail
tokens rewritten to `s-l1600`. -/
def ebayMethod2 (p : EbayPage) : List (List Char) :=
  p.carouselSrcs.foldl
    (fun acc src =>
      if src ≠ [] then
        acc ++ [pyReplace (pyReplace (pyReplace src "s-l64".toList "s-l1600".toList)
          "s-l300".toList "s-l1600".toList) "s-l400".toList "s-l1600".toList]
      else acc)
    []

/-- Strategy 3 (lines 296-299): the `og:image` social-preview tag. -/
def ebayMethod3 (p : EbayPage) : List (List Char) :=
  match p.ogImage with
  | some c => if c ≠ [] then [c] else []
  | none => []

/-- Strategy 4 (lines 302-309): every image under the main content area. -/
def ebayMethod4 (p : EbayPage) : List (List Char) :=
  match p.mainContentImgs with
  | some srcs => srcs.foldl (fun acc src => if src ≠ [] then acc ++ [src] else acc) []
  | none => []

/-- The raw candidate accumulation of `scrape_ebay_listing` (lines 275-309):
`image_urls` starts empty, strategy 1 extends it, and each later strategy
runs only under `if not image_urls:`. -/
def ebayCandidates (p : EbayPage) : List (List Char) :=
  let urls := ebayMethod1 p
  let urls := if urls = [] then urls ++ ebayMethod2 p else urls
  let urls := if urls = [] then urls ++ ebayMethod3 p else urls
  let urls := if urls = [] then urls ++ ebayMethod4 p else urls
  urls

/-- Model of `scrape_ebay_listing` (lines 243-324); `none` is a fetch/parse
exception, handled by returning `(None, [])`. -/
def scrape_ebay_listing : Option EbayPage → Option (List Char) × List (List Char)
  | none => (none, [])
  | some p => (some (ebayTitle p), dedupByNorm (ebayCandidates p))

/-- The parsed Swappa listing page (selectors of lines 346-389). -/
structure SwappaPage where
  /-- Text of `soup.select_one('h1.listing_title')`. -/
  titleMain : Option (List Char)
  titleTag : Option (List Char)
  time : Nat
  /-- The `src` attribute (default `''`) of each `img.product-gallery__slide-image`. -/
  gallerySrcs : List (List Char)
  /-- The `data-src` attribute (default `''`) of each `img[data-src]`. -/
  dataSrcs : List (List Char)
  ogImage : Option (List Char)
  /-- The `src` attributes of the images under `div.listing_content`. -/
  contentImgs : Option (List (List Char))

/-- Title extraction for Swappa (lines 346-355). -/
def swappaTitle (p : SwappaPage) : List Char :=
  match p.titleMain with
  | some t => pyStrip t
  | none =>
    match p.titleTag with
    | some t => pyStrip (t.takeWhile (fun c => c ≠ '|'))
    | none => "Swappa_Item_".toList ++ natStr p.time

/-- Strategy 1 (lines 361-365): product gallery images. -/
def swappaMethod1 (p : SwappaPage) : List (List Char) :=
  p.gallerySrcs.foldl (fun acc src => if src ≠ [] then acc ++ [src] else acc) []

/-- Strategy 2 (lines 368-373): lazy-load `data-src` attributes filtered by
a case-insensitive `product`/`listing` keyword match. -/
def swappaMethod2 (p : SwappaPage) : List (List Char) :=
  p.dataSrcs.foldl
    (fun acc src =>
      if src ≠ [] ∧ ("product".toList <:+: src.map Char.toLower ∨
          "listing".toList <:+: src.map Char.toLower) then
        acc ++ [src]
      else acc)
    []

/-- Strategy 3 (lines 376-379). -/
def swappaMethod3 (p : SwappaPage) : List (List Char) :=
  match p.ogImage with
  | some c => if c ≠ [] then [c] else []
  | none => []

/-- Strategy 4 (lines 382-389). -/
def swappaMethod4 (p : SwappaPage) : List (List Char) :=
  match p.contentImgs with
  | some srcs => srcs.foldl (fun acc src => if src ≠ [] then acc ++ [src] else acc) []
  | none => []

/-- The raw candidate accumulation of `scrape_swappa_listing`
(lines 358-389), same early-exit structure as for eBay. -/
def swappaCandidates (p : SwappaPage) : List (List Char) :=
  let urls := swappaMethod1 p
  let urls := if urls = [] then urls ++ swappaMethod2 p else urls
  let urls := if urls = [] then urls ++ swappaMethod3 p else urls
  let urls := if urls = [] then urls ++ swappaMethod4 p else urls
  urls

/-- Model of `scrape_swappa_listing` (lines 326-408).  After deduplication every URL
is made absolute with `urljoin(base_url, img_url)` against the listing's
`scheme://netloc` (lines 401-402); RFC 3986 reference resolution is not
re-modelled here, so the join is a function parameter. -/
def scrape_swappa_listing (join : List Char → List Char) :
    Option SwappaPage → Option (List Char) × List (List Char)
  | none => (none, [])
  | some p => (some (swappaTitle p), (dedupByNorm (swappaCandidates p)).map join)

/-! ## `process_listing` (lines 410-462) -/

/-- The environment of one `process_listing` call: the lowercased netloc of
the URL, the two possible parsed pages (an extractor is only consulted when
its host matches), whether `create_folder` and the `source_url.txt` write
raise, and a per-index download environment. -/
structure ListingEnv where
  /-- Value of `urlparse(url).netloc.lower()`. -/
  domain : List Char
  url : List Char
  ebayPage : Option EbayPage
  swappaPage : Option SwappaPage
  swappaJoin : List Char → List Char
  /-- Value of `os.path.join(os.path.expanduser('~'), 'listing_images')`. -/
  baseDir : List Char
  /-- Whether `create_folder` (lines 118-140) does not raise. -/
  folderOk : Bool
  /-- writing `source_url.txt` (lines 444-445) does not raise. -/
  srcWriteOk : Bool
  /-- the download environment of the `i`-th (1-based) image. -/
  dl : Nat → DownloadEnv

/-- One recorded invocation of `download_image` with its arguments. -/
structure DlCall where
  url : List Char
  folder : List Char
  filenameBase : List Char
  index : Nat
  deriving DecidableEq

structure ListingResult where
  ok : Bool
  stats : Stats
  fs : List (List Char)
  calls : List DlCall

/-- The download loop of lines 452-453: sequential, in extraction order,
with a 1-based index. -/
def runDownloads (dl : Nat → DownloadEnv) (folder base : List Char) :
    Nat → Stats → List (List Char) → List (List Char) →
    Stats × List (List Char) × List DlCall
  | _, st, fs, [] => (st, fs, [])
  | i, st, fs, u :: us =>
    let r := download_image (dl i) u folder base i st fs
    let rest := runDownloads dl folder base (i + 1) r.stats r.fs us
    (rest.1, rest.2.1, ⟨u, folder, base, i⟩ :: rest.2.2)

/-- Lines 435-457: handling of an extraction result `(title, image_urls)`.
`if not title or not image_urls` fails the listing; `create_folder` and the
provenance write raise into the outer `except` (filesystem errors fail the
listing); then the images are downloaded sequentially and the listing is
counted successful. -/
def processExtracted (env : ListingEnv) (st : Stats) (fs : List (List Char))
    (res : Option (List Char) × List (List Char)) : ListingResult :=
  match res.1 with
  | none => ⟨false, { st with failed_listings := st.failed_listings + 1 }, fs, []⟩
  | some t =>
    if t = [] ∨ res.2 = [] then
      ⟨false, { st with failed_listings := st.failed_listings + 1 }, fs, []⟩
    else if env.folderOk = false then
      ⟨false, { st with failed_listings := st.failed_listings + 1 }, fs, []⟩
    else
      let folderPath := pathJoin env.baseDir (sanitize_filename t)
      if env.srcWriteOk = false then
        ⟨false, { st with failed_listings := st.failed_listings + 1 }, fs, []⟩
      else
        let fs1 := pathJoin folderPath "source_url.txt".toList :: fs
        let base := sanitize_filename t
        let r := runDownloads env.dl folderPath base 1 st fs1 res.2
        ⟨true, { r.1 with successful_listings := r.1.successful_listings + 1 },
          r.2.1, r.2.2⟩

/-- Model of `process_listing(url)` (lines 410-462): dispatch on the host substring,
extract, and process.  The enclosing `try`/`except` makes the operation
total: every path returns a boolean and increments exactly one listing
counter. -/
def process_listing (env : ListingEnv) (st : Stats) (fs : List (List Char)) :
    ListingResult :=
  if "ebay".toList <:+: env.domain then
    processExtracted env st fs (scrape_ebay_listing env.ebayPage)
  else if "swappa".toList <:+: env.domain then
    processExtracted env st fs (scrape_swappa_listing env.swappaJoin env.swappaPage)
  else
    ⟨false, { st with failed_listings := st.failed_listings + 1 }, fs, []⟩

/-! ## Lemmas about the `s-l<digits>` rewrite -/

/-- Whether a match of `s-l\d+` starts at the head of the list. -/
def matchStartB : List Char → Bool
  | a :: b :: c :: d :: _ => decide (a = 's' ∧ b = '-' ∧ c = 'l' ∧ d.isDigit = true)
  | _ => false

theorem go_true_eq_false (a : Char) (rest : List Char) (h : a.isDigit = false) :
    subSLGo true (a :: rest) = subSLGo false (a :: rest) := by
  match rest with
  | b :: c :: d :: r2 => simp [subSLGo, h]
  | [] => simp [subSLGo, h]
  | [b] => simp [subSLGo, h]
  | [b, c] => simp [subSLGo, h]

theorem go_true_digit (a : Char) (rest : List Char) (h : a.isDigit = true) :
    subSLGo true (a :: rest) = subSLGo true rest := by
  match rest with
  | b :: c :: d :: r2 => simp [subSLGo, h]
  | [] => simp [subSLGo, h]
  | [b] => simp [subSLGo, h]
  | [b, c] => simp [subSLGo, h]

/-- In skip mode the scan first discards the pending digit run. -/
theorem skip_eq_drop : ∀ l : List Char, subSLGo true l = subSLGo false (l.dropWhile Char.isDigit)
  | [] => rfl
  | a :: rest => by
    by_cases h : a.isDigit = true
    · rw [go_true_digit a rest h, skip_eq_drop rest, List.dropWhile_cons, if_pos h]
    · have h' : a.isDigit = false := by simpa using h
      rw [go_true_eq_false a rest h', List.dropWhile_cons, if_neg h]

theorem subSL_nil : subSL [] = [] := rfl

/-- Unfolding `subSL` at a match. -/
theorem subSL_tok (d : Char) (r2 : List Char) (h : d.isDigit = true) :
    subSL ('s' :: '-' :: 'l' :: d :: r2) =
      's' :: '-' :: 'l' :: '1' :: '6' :: '0' :: '0' :: subSL (r2.dropWhile Char.isDigit) := by
  show subSLGo false _ = _
  rw [show subSLGo false ('s' :: '-' :: 'l' :: d :: r2) =
      's' :: '-' :: 'l' :: '1' :: '6' :: '0' :: '0' :: subSLGo true r2 by simp [subSLGo, h]]
  rw [skip_eq_drop]
  rfl

/-- Unfolding `subSL` when no match starts at the head. -/
theorem subSL_cons (a : Char) (rest : List Char) (h : matchStartB (a :: rest) = false) :
    subSL (a :: rest) = a :: subSL rest := by
  match rest with
  | b :: c :: d :: r2 =>
    have h' : ¬(a = 's' ∧ b = '-' ∧ c = 'l' ∧ d.isDigit = true) := by
      simpa [matchStartB] using h
    simp [subSL, subSLGo, h']
  | [] => simp [subSL, subSLGo]
  | [b] => simp [subSL, subSLGo]
  | [b, c] => simp [subSL, subSLGo]

/-- The scan predicate `matchStartB` only looks at the first four characters. -/
theorem matchStartB_eq_take (a : Char) (l : List Char) :
    matchStartB (a :: l) = matchStartB (a :: l.take 3) := by
  match l with
  | b :: c :: d :: r => rfl
  | [] => rfl
  | [b] => rfl
  | [b, c] => rfl

/-- The rewrite `subSL` preserves the first three characters of its input. -/
theorem subSL_take : ∀ (l : List Char) (k : Nat), k ≤ 3 → (subSL l).take k = l.take k
  | [], _, _ => rfl
  | a :: rest, k, hk => by
    by_cases h : matchStartB (a :: rest) = true
    · match rest, h with
      | b :: c :: d :: r2, h =>
        obtain ⟨ha, hb, hc, hd⟩ :
            a = 's' ∧ b = '-' ∧ c = 'l' ∧ d.isDigit = true := by
          simpa [matchStartB] using h
        subst ha; subst hb; subst hc
        rw [subSL_tok d r2 hd]
        interval_cases k <;> rfl
      | [], h => simp [matchStartB] at h
      | [b], h => simp [matchStartB] at h
      | [b, c], h => simp [matchStartB] at h
    · have h' : matchStartB (a :: rest) = false := by simpa using h
      rw [subSL_cons a rest h']
      match k, hk with
      | 0, _ => rfl
      | k + 1, hk =>
        rw [List.take_succ_cons, List.take_succ_cons, subSL_take rest k (by omega)]

/-- A match starts at `a :: subSL l` exactly when one starts at `a :: l`. -/
theorem matchStartB_subSL (a : Char) (l : List Char) :
    matchStartB (a :: subSL l) = matchStartB (a :: l) := by
  rw [matchStartB_eq_take, subSL_take l 3 le_rfl, ← matchStartB_eq_take]

theorem head?_eq_of_take_one {l l' : List Char} (h : l.take 1 = l'.take 1) :
    l.head? = l'.head? := by
  cases l <;> cases l' <;> simp_all

theorem subSL_head? (l : List Char) : (subSL l).head? = l.head? :=
  head?_eq_of_take_one (subSL_take l 1 (by omega))

theorem head?_dropWhile (p : Char → Bool) :
    ∀ (l : List Char) (c : Char), (l.dropWhile p).head? = some c → p c = false
  | [], c, h => by simp at h
  | a :: rest, c, h => by
    rw [List.dropWhile_cons] at h
    split at h
    · exact head?_dropWhile p rest c h
    · next hpa =>
      have : a = c := by simpa using h
      subst this
      simpa using hpa

theorem dropWhile_eq_self_of_head (p : Char → Bool) (l : List Char)
    (h : ∀ c, l.head? = some c → p c = false) : l.dropWhile p = l := by
  cases l with
  | nil => rfl
  | cons a rest =>
    rw [List.dropWhile_cons, if_neg]
    simp [h a rfl]

/-- Every character of `subSL l` is a character of `l` or of the
replacement token. -/
theorem subSL_mem : ∀ (n : Nat) (l : List Char), l.length ≤ n →
    ∀ c, c ∈ subSL l → c ∈ l ∨ c ∈ ['s', '-', 'l', '1', '6', '0', '0']
  | 0, l, hl => by
    have : l = [] := List.length_eq_zero.mp (Nat.le_zero.mp hl)
    subst this
    simp [subSL_nil]
  | n + 1, l, hl => by
    match l with
    | [] => simp [subSL_nil]
    | a :: rest =>
      by_cases h : matchStartB (a :: rest) = true
      · match rest, h with
        | b :: c :: d :: r2, h =>
          obtain ⟨ha, hb, hc, hd⟩ :
              a = 's' ∧ b = '-' ∧ c = 'l' ∧ d.isDigit = true := by
            simpa [matchStartB] using h
          subst ha; subst hb; subst hc
          rw [subSL_tok d r2 hd]
          intro x hx
          simp only [List.mem_cons] at hx
          rcases hx with h1 | h1 | h1 | h1 | h1 | h1 | h1 | h1
          · right; simp [h1]
          · right; simp [h1]
          · right; simp [h1]
          · right; simp [h1]
          · right; simp [h1]
          · right; simp [h1]
          · right; simp [h1]
          · have hlen : (r2.dropWhile Char.isDigit).length ≤ n := by
              have := (List.dropWhile_sublist (l := r2) Char.isDigit).length_le
              simp only [List.length_cons] at hl
              omega
            rcases subSL_mem n (r2.dropWhile Char.isDigit) hlen x h1 with h2 | h2
            · left
              have : x ∈ r2 := (List.dropWhile_sublist Char.isDigit).mem h2
              simp [this]
            · right; exact h2
        | [], h => simp [matchStartB] at h
        | [b], h => simp [matchStartB] at h
        | [b, c], h => simp [matchStartB] at h
      · have h' : matchStartB (a :: rest) = false := by simpa using h
        rw [subSL_cons a rest h']
        intro x hx
        rcases List.mem_cons.mp hx with h1 | h1
        · left; simp [h1]
        · have hlen : rest.length ≤ n := by
            simp only [List.length_cons] at hl; omega
          rcases subSL_mem n rest hlen x h1 with h2 | h2
          · left; simp [h2]
          · right; exact h2

/-- The rewrite `subSL` is idempotent. -/
theorem subSL_idem_aux : ∀ (n : Nat) (l : List Char), l.length ≤ n →
    subSL (subSL l) = subSL l
  | 0, l, hl => by
    have : l = [] := List.length_eq_zero.mp (Nat.le_zero.mp hl)
    subst this; rfl
  | n + 1, l, hl => by
    match l with
    | [] => rfl
    | a :: rest =>
      by_cases h : matchStartB (a :: rest) = true
      · match rest, h with
        | b :: c :: d :: r2, h =>
          obtain ⟨ha, hb, hc, hd⟩ :
              a = 's' ∧ b = '-' ∧ c = 'l' ∧ d.isDigit = true := by
            simpa [matchStartB] using h
          subst ha; subst hb; subst hc
          rw [subSL_tok d r2 hd]
          rw [subSL_tok '1' ('6' :: '0' :: '0' :: subSL (r2.dropWhile Char.isDigit)) (by decide)]
          have h6 : ('6' :: '0' :: '0' :: subSL (r2.dropWhile Char.isDigit)).dropWhile Char.isDigit
              = (subSL (r2.dropWhile Char.isDigit)).dropWhile Char.isDigit := by
            simp [List.dropWhile_cons]
          have hR : (subSL (r2.dropWhile Char.isDigit)).dropWhile Char.isDigit
              = subSL (r2.dropWhile Char.isDigit) := by
            refine dropWhile_eq_self_of_head _ _ (fun c hc => ?_)
            rw [subSL_head?] at hc
            exact head?_dropWhile Char.isDigit r2 c hc
          have hlen : (r2.dropWhile Char.isDigit).length ≤ n := by
            have := (List.dropWhile_sublist (l := r2) Char.isDigit).length_le
            simp only [List.length_cons] at hl
            omega
          rw [h6, hR, subSL_idem_aux n _ hlen]
        | [], h => simp [matchStartB] at h
        | [b], h => simp [matchStartB] at h
        | [b, c], h => simp [matchStartB] at h
      · have h' : matchStartB (a :: rest) = false := by simpa using h
        rw [subSL_cons a rest h']
        rw [subSL_cons a (subSL rest) (by rw [matchStartB_subSL]; exact h')]
        have hlen : rest.length ≤ n := by
          simp only [List.length_cons] at hl; omega
        rw [subSL_idem_aux n rest hlen]

theorem subSL_idem (l : List Char) : subSL (subSL l) = subSL l :=
  subSL_idem_aux l.length l le_rfl

/-! ## Invariance of the normalizer under resolution-token and query changes -/

theorem dropWhile_append_all (p : Char → Bool) :
    ∀ (z w : List Char), (∀ c ∈ z, p c = true) → (z ++ w).dropWhile p = w.dropWhile p
  | [], w, _ => rfl
  | c :: z', w, hz => by
    rw [List.cons_append, List.dropWhile_cons, if_pos (hz c (by simp))]
    exact dropWhile_append_all p z' w (fun x hx => hz x (by simp [hx]))

theorem dropWhile_append_of_neg (p : Char → Bool) :
    ∀ (z : List Char) (a : Char) (w : List Char), p a = false →
      (z ++ a :: w).dropWhile p = z.dropWhile p ++ a :: w
  | [], a, w, ha => by
    simp [List.dropWhile_cons, ha]
  | c :: z', a, w, ha => by
    rw [List.cons_append, List.dropWhile_cons, List.dropWhile_cons]
    split
    · exact dropWhile_append_of_neg p z' a w ha
    · rfl

theorem matchStartB_of_ne_s (c : Char) (l : List Char) (h : c ≠ 's') :
    matchStartB (c :: l) = false := by
  match l with
  | b :: d :: e :: r => simp [matchStartB, h]
  | [] => rfl
  | [b] => rfl
  | [b, d] => rfl

theorem matchStartB_append (a : Char) (x' w : List Char) (h : matchStartB (a :: x') = true) :
    matchStartB (a :: (x' ++ w)) = true := by
  match x' with
  | p :: q :: r :: x'' => simpa [matchStartB] using h
  | [] => simp [matchStartB] at h
  | [p] => simp [matchStartB] at h
  | [p, q] => simp [matchStartB] at h

theorem tok_take (z z' : List Char) : ∀ m, m ≤ 3 →
    ('s' :: '-' :: 'l' :: z).take m = ('s' :: '-' :: 'l' :: z').take m := by
  intro m hm
  interval_cases m <;> rfl

/-- Rewriting the digits of one `s-l<digits>` token does not change the
result of the `s-l` substitution pass. -/
theorem subSL_token_invariant : ∀ (n : Nat) (x d₁ d₂ b : List Char), x.length ≤ n →
    d₁ ≠ [] → d₂ ≠ [] → (∀ c ∈ d₁, c.isDigit = true) → (∀ c ∈ d₂, c.isDigit = true) →
    subSL (x ++ 's' :: '-' :: 'l' :: (d₁ ++ b)) = subSL (x ++ 's' :: '-' :: 'l' :: (d₂ ++ b))
  | n, [], d₁, d₂, b, _, h1, h2, hd1, hd2 => by
    match d₁, d₂ with
    | e₁ :: es₁, e₂ :: es₂ =>
      simp only [List.nil_append, List.cons_append]
      rw [subSL_tok e₁ (es₁ ++ b) (hd1 e₁ (by simp)),
        subSL_tok e₂ (es₂ ++ b) (hd2 e₂ (by simp))]
      rw [dropWhile_append_all _ es₁ b (fun c hc => hd1 c (by simp [hc])),
        dropWhile_append_all _ es₂ b (fun c hc => hd2 c (by simp [hc]))]
    | [], _ => exact absurd rfl h1
    | _ :: _, [] => exact absurd rfl h2
  | n + 1, a :: x', d₁, d₂, b, hx, h1, h2, hd1, hd2 => by
    have htake : (x' ++ 's' :: '-' :: 'l' :: (d₁ ++ b)).take 3
        = (x' ++ 's' :: '-' :: 'l' :: (d₂ ++ b)).take 3 := by
      rw [List.take_append_eq_append_take, List.take_append_eq_append_take,
        tok_take (d₁ ++ b) (d₂ ++ b) (3 - x'.length) (by omega)]
    have hms : matchStartB (a :: (x' ++ 's' :: '-' :: 'l' :: (d₁ ++ b)))
        = matchStartB (a :: (x' ++ 's' :: '-' :: 'l' :: (d₂ ++ b))) := by
      rw [matchStartB_eq_take, htake, ← matchStartB_eq_take]
    simp only [List.cons_append]
    by_cases h : matchStartB (a :: (x' ++ 's' :: '-' :: 'l' :: (d₁ ++ b))) = true
    · match x' with
      | [] => simp [matchStartB] at h
      | [p] => simp [matchStartB] at h
      | [p, q] => simp [matchStartB] at h
      | p :: q :: r :: x'' =>
        obtain ⟨ha, hp, hq, hr⟩ :
            a = 's' ∧ p = '-' ∧ q = 'l' ∧ r.isDigit = true := by
          simpa [matchStartB] using h
        subst ha; subst hp; subst hq
        simp only [List.cons_append] at *
        rw [subSL_tok r _ hr, subSL_tok r _ hr]
        rw [dropWhile_append_of_neg Char.isDigit x'' 's' ('-' :: 'l' :: (d₁ ++ b)) (by decide),
          dropWhile_append_of_neg Char.isDigit x'' 's' ('-' :: 'l' :: (d₂ ++ b)) (by decide)]
        have hlen : (x''.dropWhile Char.isDigit).length ≤ n := by
          have := (List.dropWhile_sublist (l := x'') Char.isDigit).length_le
          simp only [List.length_cons] at hx
          omega
        rw [subSL_token_invariant n (x''.dropWhile Char.isDigit) d₁ d₂ b hlen h1 h2 hd1 hd2]
    · have hf1 : matchStartB (a :: (x' ++ 's' :: '-' :: 'l' :: (d₁ ++ b))) = false := by
        simpa using h
      have hf2 : matchStartB (a :: (x' ++ 's' :: '-' :: 'l' :: (d₂ ++ b))) = false := by
        rw [← hms]; exact hf1
      rw [subSL_cons _ _ hf1, subSL_cons _ _ hf2]
      have hlen : x'.length ≤ n := by
        simp only [List.length_cons] at hx; omega
      rw [subSL_token_invariant n x' d₁ d₂ b hlen h1 h2 hd1 hd2]

/-- A character that can appear in no match splits the `s-l` substitution
pass into independent halves. -/
theorem subSL_barrier : ∀ (n : Nat) (x : List Char) (c : Char) (y : List Char), x.length ≤ n →
    c ≠ 's' → c ≠ '-' → c ≠ 'l' → c.isDigit = false →
    subSL (x ++ c :: y) = subSL x ++ c :: subSL y
  | n, [], c, y, _, hs, _, _, _ => by
    simp only [List.nil_append]
    rw [subSL_cons c y (matchStartB_of_ne_s c y hs), subSL_nil]
    rfl
  | n + 1, a :: x', c, y, hx, hs, hdash, hl, hdig => by
    simp only [List.cons_append]
    by_cases h : matchStartB (a :: (x' ++ c :: y)) = true
    · match x' with
      | [] =>
        exfalso
        match y with
        | y₀ :: y₁ :: ys => simp [matchStartB, hdash] at h
        | [] => simp [matchStartB] at h
        | [y₀] => simp [matchStartB] at h
      | [p] =>
        exfalso
        match y with
        | y₀ :: ys => simp [matchStartB, hl] at h
        | [] => simp [matchStartB] at h
      | [p, q] =>
        exfalso
        simp [matchStartB, hdig] at h
      | p :: q :: r :: x'' =>
        obtain ⟨ha, hp, hq, hr⟩ :
            a = 's' ∧ p = '-' ∧ q = 'l' ∧ r.isDigit = true := by
          simpa [matchStartB] using h
        subst ha; subst hp; subst hq
        simp only [List.cons_append] at *
        rw [subSL_tok r _ hr, subSL_tok r x'' hr]
        rw [dropWhile_append_of_neg Char.isDigit x'' c y hdig]
        have hlen : (x''.dropWhile Char.isDigit).length ≤ n := by
          have := (List.dropWhile_sublist (l := x'') Char.isDigit).length_le
          simp only [List.length_cons] at hx
          omega
        rw [subSL_barrier n (x''.dropWhile Char.isDigit) c y hlen hs hdash hl hdig]
        simp
    · have hf1 : matchStartB (a :: (x' ++ c :: y)) = false := by simpa using h
      have hf2 : matchStartB (a :: x') = false := by
        cases hmm : matchStartB (a :: x') with
        | false => rfl
        | true =>
          have hmm2 := matchStartB_append a x' (c :: y) hmm
          rw [hf1] at hmm2
          exact absurd hmm2 (by decide)
      rw [subSL_cons _ _ hf1, subSL_cons _ _ hf2]
      have hlen : x'.length ≤ n := by
        simp only [List.length_cons] at hx; omega
      rw [subSL_barrier n x' c y hlen hs hdash hl hdig]
      rfl

/-! ## The query strip on newline-free strings

URLs contain no raw newline characters (RFC 3986 excludes all control
characters), so on the strings the normalizer is actually applied to,
`re.sub(r'\?.*$', '', url)` simply truncates at the first `?`. -/

theorem stripCore_no_nl (s : List Char) (h : '\n' ∉ s) :
    stripCore s = s.takeWhile (fun x => x ≠ '?') := by
  cases s with
  | nil => rfl
  | cons c cs =>
    rw [stripCore, if_neg]
    intro hor
    rcases hor with h1 | h1
    · exact h (by simp [h1])
    · exact h (by simp [h1])

theorem stripQuery_no_nl (s : List Char) (h : '\n' ∉ s) :
    stripQuery s = s.takeWhile (fun x => x ≠ '?') := by
  unfold stripQuery
  split
  · next heq =>
    exact absurd (List.mem_of_mem_getLast? (by rw [heq]; rfl)) h
  · exact stripCore_no_nl s h

theorem takeWhile_append_q (x y : List Char) :
    (x ++ '?' :: y).takeWhile (fun c => c ≠ '?') = x.takeWhile (fun c => c ≠ '?') := by
  induction x with
  | nil => simp [List.takeWhile_cons]
  | cons c cs ih =>
    rw [List.cons_append, List.takeWhile_cons, List.takeWhile_cons]
    split
    · rw [ih]
    · rfl

theorem q_free_append_inj : ∀ (A C B D : List Char), '?' ∉ A → '?' ∉ C →
    A ++ '?' :: B = C ++ '?' :: D → A = C ∧ B = D
  | [], [], B, D, _, _, h => by simpa using h
  | [], c :: C', B, D, _, hC, h => by
    rw [List.nil_append, List.cons_append] at h
    exact absurd (by simp [← (List.cons.injEq .. ▸ h).1]) hC
  | a :: A', [], B, D, hA, _, h => by
    rw [List.nil_append, List.cons_append] at h
    exact absurd (by simp [(List.cons.injEq .. ▸ h).1]) hA
  | a :: A', c :: C', B, D, hA, hC, h => by
    rw [List.cons_append, List.cons_append] at h
    have h1 := (List.cons.injEq .. ▸ h).1
    have h2 := (List.cons.injEq .. ▸ h).2
    obtain ⟨hAC, hBD⟩ := q_free_append_inj A' C' B D (fun hm => hA (by simp [hm]))
      (fun hm => hC (by simp [hm])) h2
    exact ⟨by rw [h1, hAC], hBD⟩

theorem not_mem_subSL {c : Char} {l : List Char} (hl : c ∉ l)
    (htok : c ∉ ['s', '-', 'l', '1', '6', '0', '0']) : c ∉ subSL l := by
  intro hm
  rcases subSL_mem l.length l le_rfl c hm with h | h
  · exact hl h
  · exact htok h

/-- On newline-free input, `normalize_image_url` truncates the `s-l`
substitution of its input at the first `?`. -/
theorem normalize_no_nl (u : List Char) (h : '\n' ∉ u) :
    normalize_image_url u = (subSL u).takeWhile (fun c => c ≠ '?') := by
  unfold normalize_image_url
  exact stripQuery_no_nl _ (not_mem_subSL h (by decide))

/-- The part of a `subSL` image before its first `?` is a fixed point of
`subSL`. -/
theorem subSL_fix_takeWhile (u : List Char) :
    subSL ((subSL u).takeWhile (fun c => c ≠ '?'))
      = (subSL u).takeWhile (fun c => c ≠ '?') := by
  have hVq : '?' ∉ (subSL u).takeWhile (fun c => c ≠ '?') := by
    intro hm
    have := List.mem_takeWhile_imp hm
    simp at this
  have hsplit := List.takeWhile_append_dropWhile (p := fun c => c ≠ '?') (l := subSL u)
  cases hd : (subSL u).dropWhile (fun c => c ≠ '?') with
  | nil =>
    have hVe : (subSL u).takeWhile (fun c => c ≠ '?') = subSL u := by
      conv_rhs => rw [← hsplit]
      rw [hd, List.append_nil]
    rw [hVe, subSL_idem]
  | cons q W =>
    have hq : q = '?' := by
      have := head?_dropWhile (fun c => c ≠ '?') (subSL u) q (by rw [hd]; rfl)
      simpa using this
    subst hq
    have heq : (subSL u).takeWhile (fun c => c ≠ '?') ++ '?' :: W = subSL u := by
      rw [← hd, hsplit]
    have hfix : subSL ((subSL u).takeWhile (fun c => c ≠ '?') ++ '?' :: W)
        = (subSL u).takeWhile (fun c => c ≠ '?') ++ '?' :: W := by
      rw [heq, subSL_idem]
    rw [subSL_barrier ((subSL u).takeWhile (fun c => c ≠ '?')).length _ '?' W le_rfl
      (by decide) (by decide) (by decide) (by decide)] at hfix
    have hVq2 : '?' ∉ subSL ((subSL u).takeWhile (fun c => c ≠ '?')) :=
      not_mem_subSL hVq (by decide)
    exact (q_free_append_inj _ _ _ _ hVq2 hVq hfix).1

/-- The normalizer `normalize_image_url` is idempotent on newline-free strings. -/
theorem normalize_idem (u : List Char) (h : '\n' ∉ u) :
    normalize_image_url (normalize_image_url u) = normalize_image_url u := by
  have hnl_sub : '\n' ∉ subSL u := not_mem_subSL h (by decide)
  have hVnl : '\n' ∉ (subSL u).takeWhile (fun c => c ≠ '?') := by
    intro hm
    exact hnl_sub ((List.takeWhile_sublist _).mem hm)
  rw [normalize_no_nl u h]
  rw [normalize_no_nl _ hVnl, subSL_fix_takeWhile u]
  exact List.takeWhile_eq_self_iff.mpr (fun x hx => by
    have := List.mem_takeWhile_imp hx
    simpa using this)

/-- Changing only the trailing query string does not change the normalized
key (newline-free strings). -/
theorem normalize_query_invariant (a q₁ q₂ : List Char) (ha : '\n' ∉ a)
    (h1 : '\n' ∉ q₁) (h2 : '\n' ∉ q₂) :
    normalize_image_url (a ++ '?' :: q₁) = normalize_image_url (a ++ '?' :: q₂) := by
  have key : ∀ q, '\n' ∉ q →
      normalize_image_url (a ++ '?' :: q) = (subSL a).takeWhile (fun c => c ≠ '?') := by
    intro q hq
    unfold normalize_image_url
    rw [subSL_barrier a.length a '?' q le_rfl (by decide) (by decide) (by decide) (by decide)]
    rw [stripQuery_no_nl, takeWhile_append_q]
    intro hm
    rcases List.mem_append.mp hm with hm1 | hm1
    · exact not_mem_subSL ha (by decide) hm1
    · rcases List.mem_cons.mp hm1 with hm2 | hm2
      · exact absurd hm2 (by decide)
      · exact not_mem_subSL hq (by decide) hm2
  rw [key q₁ h1, key q₂ h2]

/-- Changing only the digits of one `s-l<digits>` resolution token does not
change the normalized key. -/
theorem normalize_token_invariant (x d₁ d₂ b : List Char)
    (h1 : d₁ ≠ []) (h2 : d₂ ≠ []) (hd1 : ∀ c ∈ d₁, c.isDigit = true)
    (hd2 : ∀ c ∈ d₂, c.isDigit = true) :
    normalize_image_url (x ++ 's' :: '-' :: 'l' :: (d₁ ++ b))
      = normalize_image_url (x ++ 's' :: '-' :: 'l' :: (d₂ ++ b)) := by
  unfold normalize_image_url
  rw [subSL_token_invariant x.length x d₁ d₂ b le_rfl h1 h2 hd1 hd2]

/-! ## Properties of the deduplication -/

/-- Recursive reformulation of the insertion-ordered dict deduplication,
carrying the set of already-inserted keys. -/
def dedupAux (seen : List (List Char)) : List (List Char) → List (List Char)
  | [] => []
  | u :: us =>
    if normalize_image_url u ∈ seen then dedupAux seen us
    else u :: dedupAux (seen ++ [normalize_image_url u]) us

theorem dedup_foldl : ∀ (l ks vs : List (List Char)),
    (l.foldl
      (fun (acc : List (List Char) × List (List Char)) u =>
        let k := normalize_image_url u
        if k ∈ acc.1 then acc else (acc.1 ++ [k], acc.2 ++ [u]))
      (ks, vs)).2
    = vs ++ dedupAux ks l
  | [], ks, vs => by simp [dedupAux]
  | u :: us, ks, vs => by
    rw [List.foldl_cons]
    by_cases h : normalize_image_url u ∈ ks
    · simp only [if_pos h, dedupAux]
      rw [dedup_foldl us ks vs]
    · simp only [if_neg h, dedupAux]
      rw [dedup_foldl us (ks ++ [normalize_image_url u]) (vs ++ [u])]
      simp

theorem dedupByNorm_eq_aux (l : List (List Char)) : dedupByNorm l = dedupAux [] l := by
  unfold dedupByNorm
  rw [dedup_foldl l [] []]
  simp

theorem dedupAux_sublist : ∀ (seen l : List (List Char)), List.Sublist (dedupAux seen l) l
  | _, [] => List.nil_sublist []
  | seen, u :: us => by
    rw [dedupAux]
    split
    · exact (dedupAux_sublist seen us).cons u
    · exact (dedupAux_sublist _ us).cons₂ u

/-- Every kept entry has a key outside `seen` and is the first element of
the input with its key. -/
theorem dedupAux_mem_prop : ∀ (seen l : List (List Char)) (v : List Char), v ∈ dedupAux seen l →
    normalize_image_url v ∉ seen ∧
      l.find? (fun w => decide (normalize_image_url w = normalize_image_url v)) = some v
  | seen, [], v, h => absurd h (by simp [dedupAux])
  | seen, u :: us, v, h => by
    rw [dedupAux] at h
    by_cases hk : normalize_image_url u ∈ seen
    · rw [if_pos hk] at h
      obtain ⟨hns, hfind⟩ := dedupAux_mem_prop seen us v h
      have hne : decide (normalize_image_url u = normalize_image_url v) = false := by
        simp only [decide_eq_false_iff_not]
        exact fun he => hns (he ▸ hk)
      exact ⟨hns, by simp only [List.find?, hne]; exact hfind⟩
    · rw [if_neg hk] at h
      rcases List.mem_cons.mp h with rfl | hmem
      · refine ⟨hk, ?_⟩
        simp [List.find?]
      · obtain ⟨hns, hfind⟩ := dedupAux_mem_prop (seen ++ [normalize_image_url u]) us v hmem
        have hnsv : normalize_image_url v ∉ seen := fun hm => hns (by simp [hm])
        have hneq : normalize_image_url u ≠ normalize_image_url v := fun he => hns (by simp [he])
        have hne : decide (normalize_image_url u = normalize_image_url v) = false := by
          simp only [decide_eq_false_iff_not]; exact hneq
        exact ⟨hnsv, by simp only [List.find?, hne]; exact hfind⟩

/-- The kept entries have pairwise distinct keys. -/
theorem dedupAux_nodup : ∀ (seen l : List (List Char)),
    ((dedupAux seen l).map normalize_image_url).Nodup
  | seen, [] => by simp [dedupAux]
  | seen, u :: us => by
    rw [dedupAux]
    split
    · exact dedupAux_nodup seen us
    · rw [List.map_cons]
      refine List.nodup_cons.mpr ⟨?_, dedupAux_nodup _ us⟩
      intro hmem
      rcases List.mem_map.mp hmem with ⟨v, hv, hveq⟩
      exact (dedupAux_mem_prop _ us v hv).1 (by simp [hveq])

/-- Every input key is represented in the output (or was already seen). -/
theorem dedupAux_covers : ∀ (seen l : List (List Char)) (u : List Char), u ∈ l →
    normalize_image_url u ∈ seen ∨
      normalize_image_url u ∈ (dedupAux seen l).map normalize_image_url
  | seen, [], u, h => absurd h (List.not_mem_nil u)
  | seen, w :: ws, u, h => by
    rw [dedupAux]
    by_cases hk : normalize_image_url w ∈ seen
    · rw [if_pos hk]
      rcases List.mem_cons.mp h with rfl | hmem
      · exact Or.inl hk
      · exact dedupAux_covers seen ws u hmem
    · rw [if_neg hk]
      rcases List.mem_cons.mp h with rfl | hmem
      · right; simp
      · rcases dedupAux_covers (seen ++ [normalize_image_url w]) ws u hmem with h1 | h1
        · rcases List.mem_append.mp h1 with h2 | h2
          · exact Or.inl h2
          · right
            simp only [List.mem_singleton] at h2
            simp [h2]
        · right; simp [h1]

/-! ## Properties of the sanitizer -/

/-- Every character of `valid_chars` other than the space is in the allowed
output set `[A-Za-z0-9_.()-]`. -/
theorem valid_sub_allowed : ∀ x ∈ validChars, x = ' ' ∨ x ∈ allowedChars := by decide

theorem mapped_filter_allowed (name : List Char) :
    ∀ c ∈ (name.filter (fun c => c ∈ validChars)).map (fun c => if c = ' ' then '_' else c),
      c ∈ allowedChars := by
  intro c hc
  rcases List.mem_map.mp hc with ⟨x, hx, hxeq⟩
  have hxv : x ∈ validChars := by
    have := List.mem_filter.mp hx
    simpa using this.2
  rcases valid_sub_allowed x hxv with rfl | hall
  · rw [← hxeq]; decide
  · rw [← hxeq]
    by_cases hsp : x = ' '
    · rw [hsp] at hall; exact absurd hall (by decide)
    · simpa [hsp] using hall

/-- Output characters of the sanitizer lie in `[A-Za-z0-9_.()-]`. -/
theorem sanitize_allowed (name : List Char) :
    ∀ c ∈ sanitize_filename name, c ∈ allowedChars := by
  intro c hc
  simp only [sanitize_filename] at hc
  split at hc
  · rcases List.mem_append.mp hc with h1 | h1
    · exact mapped_filter_allowed name c (List.take_subset _ _ h1)
    · have : c = '.' := by simpa using h1
      rw [this]; decide
  · exact mapped_filter_allowed name c hc

/-- The sanitizer output has length at most `100`. -/
theorem sanitize_length (name : List Char) : (sanitize_filename name).length ≤ 100 := by
  simp only [sanitize_filename]
  split
  · have h1 := List.length_take_le 97
      ((name.filter (fun c => c ∈ validChars)).map (fun c => if c = ' ' then '_' else c))
    simp only [List.length_append, List.length_cons, List.length_nil]
    omega
  · next h => omega

/-- Whenever the filtered input is longer than `100`, the output carries the
`...` truncation marker. -/
theorem sanitize_marker (name : List Char)
    (h : 100 < (name.filter (fun c => c ∈ validChars)).length) :
    ['.', '.', '.'] <:+ sanitize_filename name := by
  simp only [sanitize_filename]
  rw [if_pos (by simpa using h)]
  exact ⟨_, rfl⟩

/-! ## Behaviour of the downloader and the orchestrator -/

/-- The downloader `download_image` never touches the listing counters. -/
theorem download_image_listing_counters (env : DownloadEnv) (u f b : List Char) (i : Nat)
    (st : Stats) (fs : List (List Char)) :
    (download_image env u f b i st fs).stats.successful_listings = st.successful_listings ∧
    (download_image env u f b i st fs).stats.failed_listings = st.failed_listings := by
  rcases env with ⟨fetch, writeOk, convertOk⟩
  cases fetch with
  | err => exact ⟨rfl, rfl⟩
  | ok resp =>
    simp only [download_image]
    split_ifs <;> exact ⟨rfl, rfl⟩

/-- Counter behaviour of `download_image`: `failed_images` is incremented
exactly when the call returns `false`; a `true` return increments
`successful_images` except on the pre-existing-file path, which leaves the
counters untouched. -/
theorem download_image_spec (env : DownloadEnv) (u f b : List Char) (i : Nat)
    (st : Stats) (fs : List (List Char)) :
    ((download_image env u f b i st fs).ok = false →
      (download_image env u f b i st fs).stats
        = { st with failed_images := st.failed_images + 1 }) ∧
    ((download_image env u f b i st fs).ok = true →
      (download_image env u f b i st fs).stats
          = { st with successful_images := st.successful_images + 1 } ∨
        ((download_image env u f b i st fs).stats = st ∧
          ∃ p, (download_image env u f b i st fs).target = some p ∧ p ∈ fs)) := by
  rcases env with ⟨fetch, writeOk, convertOk⟩
  cases fetch with
  | err => exact ⟨fun _ => rfl, fun h => absurd h (by simp [download_image])⟩
  | ok resp =>
    simp only [download_image]
    split_ifs <;>
      first
        | exact ⟨fun _ => rfl, fun h => absurd h (by simp)⟩
        | exact ⟨fun h => absurd h (by simp), fun _ => Or.inl rfl⟩
        | exact ⟨fun h => absurd h (by simp), fun _ => Or.inr ⟨rfl, ⟨_, rfl, by assumption⟩⟩⟩

/-- When the GET succeeds with image content and the target file already
exists, `download_image` returns `true` without changing the statistics or
the filesystem, having issued its one GET request. -/
theorem download_image_skip (env : DownloadEnv) (u f b : List Char) (i : Nat)
    (st : Stats) (fs : List (List Char)) (resp : ImageResponse)
    (hf : env.fetch = .ok resp)
    (hct : "image/".toList <+: resp.contentType)
    (hex : pathJoin f (b ++ '_' :: natStr i ++ extFor resp.contentType) ∈ fs) :
    download_image env u f b i st fs
      = ⟨true, st, fs, 1, some (pathJoin f (b ++ '_' :: natStr i ++ extFor resp.contentType))⟩ := by
  simp only [download_image, hf]
  rw [if_neg (by simp only [not_not]; simpa using hct), if_pos hex]

/-- On any successful image response, the target path computed by
`download_image` is `{folder}/{filename}_{index}.{ext}` with the extension
derived from the content type. -/
theorem download_image_target (env : DownloadEnv) (u f b : List Char) (i : Nat)
    (st : Stats) (fs : List (List Char)) (resp : ImageResponse)
    (hf : env.fetch = .ok resp)
    (hct : "image/".toList <+: resp.contentType) :
    (download_image env u f b i st fs).target
      = some (pathJoin f (b ++ '_' :: natStr i ++ extFor resp.contentType)) := by
  simp only [download_image, hf]
  rw [if_neg (by simp only [not_not]; simpa using hct)]
  split_ifs <;> rfl

/-- The download loop leaves the listing counters unchanged. -/
theorem runDownloads_listing_counters :
    ∀ (urls : List (List Char)) (dl : Nat → DownloadEnv) (folder base : List Char)
      (i : Nat) (st : Stats) (fs : List (List Char)),
    (runDownloads dl folder base i st fs urls).1.successful_listings = st.successful_listings ∧
    (runDownloads dl folder base i st fs urls).1.failed_listings = st.failed_listings
  | [], _, _, _, _, _, _ => ⟨rfl, rfl⟩
  | u :: us, dl, folder, base, i, st, fs => by
    have h1 := download_image_listing_counters (dl i) u folder base i st fs
    have h2 := runDownloads_listing_counters us dl folder base (i + 1)
      (download_image (dl i) u folder base i st fs).stats
      (download_image (dl i) u folder base i st fs).fs
    simp only [runDownloads]
    exact ⟨h2.1.trans h1.1, h2.2.trans h1.2⟩

/-- The download loop invokes the downloader once per URL, sequentially in
list order, with consecutive 1-based indices. -/
theorem runDownloads_calls :
    ∀ (urls : List (List Char)) (dl : Nat → DownloadEnv) (folder base : List Char)
      (i : Nat) (st : Stats) (fs : List (List Char)),
    (runDownloads dl folder base i st fs urls).2.2
      = (urls.enumFrom i).map (fun p => ⟨p.2, folder, base, p.1⟩)
  | [], _, _, _, _, _, _ => rfl
  | u :: us, dl, folder, base, i, st, fs => by
    simp only [runDownloads, List.enumFrom, List.map_cons]
    rw [runDownloads_calls us dl folder base (i + 1)]

/-- The handler `processExtracted` increments exactly one listing counter, matching its
boolean result. -/
theorem processExtracted_counters (env : ListingEnv) (st : Stats) (fs : List (List Char))
    (res : Option (List Char) × List (List Char)) :
    ((processExtracted env st fs res).ok = true →
      (processExtracted env st fs res).stats.successful_listings = st.successful_listings + 1 ∧
      (processExtracted env st fs res).stats.failed_listings = st.failed_listings) ∧
    ((processExtracted env st fs res).ok = false →
      (processExtracted env st fs res).stats.failed_listings = st.failed_listings + 1 ∧
      (processExtracted env st fs res).stats.successful_listings = st.successful_listings) := by
  obtain ⟨t?, urls⟩ := res
  cases t? with
  | none => exact ⟨fun h => absurd h (by simp [processExtracted]), fun _ => ⟨rfl, rfl⟩⟩
  | some t =>
    simp only [processExtracted]
    split_ifs with h1 h2 h3
    · exact ⟨fun h => absurd h (by simp), fun _ => ⟨rfl, rfl⟩⟩
    · exact ⟨fun h => absurd h (by simp), fun _ => ⟨rfl, rfl⟩⟩
    · exact ⟨fun h => absurd h (by simp), fun _ => ⟨rfl, rfl⟩⟩
    · have hrc := runDownloads_listing_counters urls env.dl
        (pathJoin env.baseDir (sanitize_filename t)) (sanitize_filename t) 1 st
        (pathJoin (pathJoin env.baseDir (sanitize_filename t)) "source_url.txt".toList :: fs)
      refine ⟨fun _ => ⟨?_, ?_⟩, fun h => absurd h (by simp)⟩
      · simpa using hrc.1
      · simpa using hrc.2

/-- The extraction result `process_listing` dispatches on, when the host is
supported. -/
def extractionOf (env : ListingEnv) : Option (Option (List Char) × List (List Char)) :=
  if "ebay".toList <:+: env.domain then some (scrape_ebay_listing env.ebayPage)
  else if "swappa".toList <:+: env.domain then
    some (scrape_swappa_listing env.swappaJoin env.swappaPage)
  else none

theorem process_listing_eq (env : ListingEnv) (st : Stats) (fs : List (List Char)) :
    process_listing env st fs
      = match extractionOf env with
        | some res => processExtracted env st fs res
        | none => ⟨false, { st with failed_listings := st.failed_listings + 1 }, fs, []⟩ := by
  unfold process_listing extractionOf
  split_ifs <;> rfl

/-! ## Claims -/

/-- C1, counterexample to the claim as stated: with the target file
`f/img_1.jpg` already on disk, a failing GET still makes `download_image`
return `false` (the claim says it returns `true`), and even on the
successful path one GET request is issued (the claim says no network
request happens), because the `session.get` of line 182 precedes the
existence check of line 210. -/
theorem C1_counterexample :
    pathJoin "f".toList "img_1.jpg".toList ∈ [pathJoin "f".toList "img_1.jpg".toList] ∧
    (download_image ⟨.err, true, true⟩ "u".toList "f".toList "img".toList 1 ⟨0, 0, 0, 0⟩
      [pathJoin "f".toList "img_1.jpg".toList]).ok = false ∧
    (download_image ⟨.ok ⟨"image/jpeg".toList⟩, true, true⟩ "u".toList "f".toList "img".toList 1
      ⟨0, 0, 0, 0⟩ [pathJoin "f".toList "img_1.jpg".toList]).requests = 1 := by
  decide

/-- C1 (amended): when the GET succeeds with an image content type and the
target file `{filename_base}_{index}.{ext}` already exists, `download_image`
returns `true` without re-downloading — the filesystem and the counters are
untouched — though the single GET request has still been issued. -/
theorem C1_existing_file_skip (env : DownloadEnv) (u f b : List Char) (i : Nat)
    (st : Stats) (fs : List (List Char)) (resp : ImageResponse)
    (hf : env.fetch = .ok resp)
    (hct : "image/".toList <+: resp.contentType)
    (hex : pathJoin f (b ++ '_' :: natStr i ++ extFor resp.contentType) ∈ fs) :
    download_image env u f b i st fs
      = ⟨true, st, fs, 1, some (pathJoin f (b ++ '_' :: natStr i ++ extFor resp.contentType))⟩ :=
  download_image_skip env u f b i st fs resp hf hct hex

theorem C1_witness :
    download_image ⟨.ok ⟨"image/png".toList⟩, true, true⟩ "u".toList "f".toList "img".toList 2
        ⟨1, 2, 3, 4⟩ [pathJoin "f".toList ("img".toList ++ '_' :: natStr 2 ++ extFor "image/png".toList)]
      = ⟨true, ⟨1, 2, 3, 4⟩,
          [pathJoin "f".toList ("img".toList ++ '_' :: natStr 2 ++ extFor "image/png".toList)], 1,
          some (pathJoin "f".toList ("img".toList ++ '_' :: natStr 2 ++ extFor "image/png".toList))⟩ :=
  C1_existing_file_skip _ "u".toList "f".toList "img".toList 2 _ _ _ rfl (by decide)
    (by decide)

/-- C2, counterexample to the claim as stated: on the pre-existing-file path
`download_image` returns `true` but increments neither `successful_images`
nor `failed_images` (line 212 returns before the increment of line 235). -/
theorem C2_counterexample :
    (download_image ⟨.ok ⟨"image/jpeg".toList⟩, true, true⟩ "u".toList "f".toList "a".toList 1
      ⟨0, 0, 0, 0⟩ ["f/a_1.jpg".toList]).ok = true ∧
    (download_image ⟨.ok ⟨"image/jpeg".toList⟩, true, true⟩ "u".toList "f".toList "a".toList 1
      ⟨0, 0, 0, 0⟩ ["f/a_1.jpg".toList]).stats = ⟨0, 0, 0, 0⟩ := by
  decide

/-- C2 (amended): a completed `download_image` call increments
`failed_images` exactly when it returns `false`; a `true` return increments
`successful_images`, except on the pre-existing-file path where the counters
are left untouched; the listing counters are never touched. -/
theorem C2_image_counters (env : DownloadEnv) (u f b : List Char) (i : Nat)
    (st : Stats) (fs : List (List Char)) :
    ((download_image env u f b i st fs).ok = false →
      (download_image env u f b i st fs).stats
        = { st with failed_images := st.failed_images + 1 }) ∧
    ((download_image env u f b i st fs).ok = true →
      (download_image env u f b i st fs).stats
          = { st with successful_images := st.successful_images + 1 } ∨
        ((download_image env u f b i st fs).stats = st ∧
          ∃ p, (download_image env u f b i st fs).target = some p ∧ p ∈ fs)) ∧
    (download_image env u f b i st fs).stats.successful_listings = st.successful_listings ∧
    (download_image env u f b i st fs).stats.failed_listings = st.failed_listings :=
  ⟨(download_image_spec env u f b i st fs).1, (download_image_spec env u f b i st fs).2,
    (download_image_listing_counters env u f b i st fs).1,
    (download_image_listing_counters env u f b i st fs).2⟩

theorem C2_witness :
    (download_image ⟨.err, true, true⟩ "u".toList "f".toList "a".toList 1 ⟨0, 0, 0, 0⟩ []).stats
      = { successful_listings := 0, failed_listings := 0, successful_images := 0,
          failed_images := 1 } :=
  (C2_image_counters ⟨.err, true, true⟩ "u".toList "f".toList "a".toList 1 ⟨0, 0, 0, 0⟩ []).1 rfl

/-- C3, counterexample to the claim as stated: the input
`'/' :: 100 × 'a'` has length `101 > 100`, but its sanitized form (the slash
is stripped) has length `100` and carries no `...` marker — the truncation
test of line 113 looks at the sanitized length, not the input length. -/
theorem C3_counterexample :
    100 < ('/' :: List.replicate 100 'a').length ∧
    sanitize_filename ('/' :: List.replicate 100 'a') = List.replicate 100 'a' ∧
    ¬ (['.', '.', '.'] <:+ sanitize_filename ('/' :: List.replicate 100 'a')) := by
  decide

/-- C3 (amended): the sanitizer output contains only characters from
`[A-Za-z0-9_.()-]` (spaces having been replaced by underscores), has length
at most `100`, and ends with the `...` marker whenever the input *after
removal of invalid characters* exceeds `100` characters. -/
theorem C3_sanitize (name : List Char) :
    (∀ c ∈ sanitize_filename name, c ∈ allowedChars) ∧
    (sanitize_filename name).length ≤ 100 ∧
    (100 < (name.filter (fun c => c ∈ validChars)).length →
      ['.', '.', '.'] <:+ sanitize_filename name) :=
  ⟨sanitize_allowed name, sanitize_length name, fun h => sanitize_marker name h⟩

theorem C3_witness :
    (∀ c ∈ sanitize_filename (List.replicate 101 'a'), c ∈ allowedChars) ∧
    (sanitize_filename (List.replicate 101 'a')).length ≤ 100 ∧
    ['.', '.', '.'] <:+ sanitize_filename (List.replicate 101 'a') :=
  ⟨(C3_sanitize (List.replicate 101 'a')).1, (C3_sanitize (List.replicate 101 'a')).2.1,
    (C3_sanitize (List.replicate 101 'a')).2.2 (by decide)⟩

/-- C4: two image URLs that differ only in the digits of an `s-l<digits>`
resolution token, or only in a trailing query string, get the same
normalized key (URLs contain no newline, which the query parts assume); and
the deduplication keyed on the normalized URL is an order-preserving
sublist of its input with pairwise-distinct keys that represents every
input key and keeps, per key, exactly the first-seen raw URL. -/
theorem C4_normalize_dedup :
    (∀ x d₁ d₂ b : List Char, d₁ ≠ [] → d₂ ≠ [] →
      (∀ c ∈ d₁, c.isDigit = true) → (∀ c ∈ d₂, c.isDigit = true) →
      normalize_image_url (x ++ 's' :: '-' :: 'l' :: (d₁ ++ b))
        = normalize_image_url (x ++ 's' :: '-' :: 'l' :: (d₂ ++ b))) ∧
    (∀ a q₁ q₂ : List Char, '\n' ∉ a → '\n' ∉ q₁ → '\n' ∉ q₂ →
      normalize_image_url (a ++ '?' :: q₁) = normalize_image_url (a ++ '?' :: q₂)) ∧
    (∀ l : List (List Char), List.Sublist (dedupByNorm l) l) ∧
    (∀ l : List (List Char), ((dedupByNorm l).map normalize_image_url).Nodup) ∧
    (∀ (l : List (List Char)) (u : List Char), u ∈ l →
      normalize_image_url u ∈ (dedupByNorm l).map normalize_image_url) ∧
    (∀ (l : List (List Char)) (v : List Char), v ∈ dedupByNorm l →
      l.find? (fun w => decide (normalize_image_url w = normalize_image_url v)) = some v) := by
  refine ⟨normalize_token_invariant, normalize_query_invariant, ?_, ?_, ?_, ?_⟩
  · intro l
    rw [dedupByNorm_eq_aux]
    exact dedupAux_sublist [] l
  · intro l
    rw [dedupByNorm_eq_aux]
    exact dedupAux_nodup [] l
  · intro l u hu
    rw [dedupByNorm_eq_aux]
    rcases dedupAux_covers [] l u hu with h | h
    · exact absurd h (List.not_mem_nil _)
    · exact h
  · intro l v hv
    rw [dedupByNorm_eq_aux] at hv
    exact (dedupAux_mem_prop [] l v hv).2

theorem C4_witness :
    (normalize_image_url ("a.com/".toList ++ 's' :: '-' :: 'l' :: (['6', '4'] ++ ".jpg".toList))
      = normalize_image_url ("a.com/".toList ++ 's' :: '-' :: 'l' :: (['3', '0', '0'] ++ ".jpg".toList))) ∧
    (normalize_image_url ("a.com/i.jpg".toList ++ '?' :: "x=1".toList)
      = normalize_image_url ("a.com/i.jpg".toList ++ '?' :: "cache=9".toList)) ∧
    List.Sublist (dedupByNorm ["a.com/s-l64.jpg".toList, "a.com/s-l1600.jpg".toList, "b.com/x.jpg".toList])
      ["a.com/s-l64.jpg".toList, "a.com/s-l1600.jpg".toList, "b.com/x.jpg".toList] ∧
    ((dedupByNorm ["a.com/s-l64.jpg".toList, "a.com/s-l1600.jpg".toList]).map normalize_image_url).Nodup ∧
    normalize_image_url "a.com/s-l1600.jpg".toList
      ∈ (dedupByNorm ["a.com/s-l64.jpg".toList, "a.com/s-l1600.jpg".toList]).map normalize_image_url ∧
    ["a.com/s-l64.jpg".toList, "a.com/s-l1600.jpg".toList].find?
        (fun w => decide (normalize_image_url w = normalize_image_url "a.com/s-l64.jpg".toList))
      = some "a.com/s-l64.jpg".toList :=
  ⟨C4_normalize_dedup.1 "a.com/".toList ['6', '4'] ['3', '0', '0'] ".jpg".toList
      (by decide) (by decide) (by decide) (by decide),
    C4_normalize_dedup.2.1 "a.com/i.jpg".toList "x=1".toList "cache=9".toList
      (by decide) (by decide) (by decide),
    C4_normalize_dedup.2.2.1 _,
    C4_normalize_dedup.2.2.2.1 _,
    C4_normalize_dedup.2.2.2.2.1 _ "a.com/s-l1600.jpg".toList (by decide),
    C4_normalize_dedup.2.2.2.2.2 _ "a.com/s-l64.jpg".toList (by decide)⟩

/-- C5: for both sites, extraction returns (after the §4.3 dedup keyed on
the normalized URL, and for Swappa the absolutization map) exactly the
candidates of the first strategy that yields at least one URL, tried in the
fixed order 1-2-3-4; later strategies contribute nothing once an earlier
one has yielded results, and strategies are never merged. -/
theorem C5_strategy_priority :
    (∀ p : EbayPage,
      (ebayMethod1 p ≠ [] →
        scrape_ebay_listing (some p) = (some (ebayTitle p), dedupByNorm (ebayMethod1 p))) ∧
      (ebayMethod1 p = [] → ebayMethod2 p ≠ [] →
        scrape_ebay_listing (some p) = (some (ebayTitle p), dedupByNorm (ebayMethod2 p))) ∧
      (ebayMethod1 p = [] → ebayMethod2 p = [] → ebayMethod3 p ≠ [] →
        scrape_ebay_listing (some p) = (some (ebayTitle p), dedupByNorm (ebayMethod3 p))) ∧
      (ebayMethod1 p = [] → ebayMethod2 p = [] → ebayMethod3 p = [] →
        scrape_ebay_listing (some p) = (some (ebayTitle p), dedupByNorm (ebayMethod4 p)))) ∧
    (∀ (join : List Char → List Char) (p : SwappaPage),
      (swappaMethod1 p ≠ [] →
        scrape_swappa_listing join (some p)
          = (some (swappaTitle p), (dedupByNorm (swappaMethod1 p)).map join)) ∧
      (swappaMethod1 p = [] → swappaMethod2 p ≠ [] →
        scrape_swappa_listing join (some p)
          = (some (swappaTitle p), (dedupByNorm (swappaMethod2 p)).map join)) ∧
      (swappaMethod1 p = [] → swappaMethod2 p = [] → swappaMethod3 p ≠ [] →
        scrape_swappa_listing join (some p)
          = (some (swappaTitle p), (dedupByNorm (swappaMethod3 p)).map join)) ∧
      (swappaMethod1 p = [] → swappaMethod2 p = [] → swappaMethod3 p = [] →
        scrape_swappa_listing join (some p)
          = (some (swappaTitle p), (dedupByNorm (swappaMethod4 p)).map join))) := by
  constructor
  · intro p
    refine ⟨fun h1 => ?_, fun h1 h2 => ?_, fun h1 h2 h3 => ?_, fun h1 h2 h3 => ?_⟩
    · simp [scrape_ebay_listing, ebayCandidates, h1]
    · simp [scrape_ebay_listing, ebayCandidates, h1, h2]
    · simp [scrape_ebay_listing, ebayCandidates, h1, h2, h3]
    · simp [scrape_ebay_listing, ebayCandidates, h1, h2, h3]
  · intro join p
    refine ⟨fun h1 => ?_, fun h1 h2 => ?_, fun h1 h2 h3 => ?_, fun h1 h2 h3 => ?_⟩
    · simp [scrape_swappa_listing, swappaCandidates, h1]
    · simp [scrape_swappa_listing, swappaCandidates, h1, h2]
    · simp [scrape_swappa_listing, swappaCandidates, h1, h2, h3]
    · simp [scrape_swappa_listing, swappaCandidates, h1, h2, h3]

theorem C5_witness :
    scrape_ebay_listing (some ⟨some " My Phone ".toList, none, 0,
        [some "var d = \x7b\"imageUrl\": \"http://a/1.jpg\"\x7d;".toList],
        ["th.jpg".toList], some "og.jpg".toList, none⟩)
      = (some (ebayTitle ⟨some " My Phone ".toList, none, 0,
          [some "var d = \x7b\"imageUrl\": \"http://a/1.jpg\"\x7d;".toList],
          ["th.jpg".toList], some "og.jpg".toList, none⟩),
        dedupByNorm (ebayMethod1 ⟨some " My Phone ".toList, none, 0,
          [some "var d = \x7b\"imageUrl\": \"http://a/1.jpg\"\x7d;".toList],
          ["th.jpg".toList], some "og.jpg".toList, none⟩)) ∧
    scrape_swappa_listing id (some ⟨some "Pixel".toList, none, 0, [],
        ["cdn/product/1.jpg".toList], some "og.jpg".toList, none⟩)
      = (some (swappaTitle ⟨some "Pixel".toList, none, 0, [],
          ["cdn/product/1.jpg".toList], some "og.jpg".toList, none⟩),
        (dedupByNorm (swappaMethod2 ⟨some "Pixel".toList, none, 0, [],
          ["cdn/product/1.jpg".toList], some "og.jpg".toList, none⟩)).map id) :=
  ⟨((C5_strategy_priority.1 _).1 (by decide)),
    ((C5_strategy_priority.2 id _).2.1 (by decide) (by decide))⟩

theorem process_listing_of_extraction (env : ListingEnv) (st : Stats) (fs : List (List Char))
    (res : Option (List Char) × List (List Char)) (h : extractionOf env = some res) :
    process_listing env st fs = processExtracted env st fs res := by
  rw [process_listing_eq, h]

theorem process_listing_of_unsupported (env : ListingEnv) (st : Stats) (fs : List (List Char))
    (h : extractionOf env = none) :
    process_listing env st fs
      = ⟨false, { st with failed_listings := st.failed_listings + 1 }, fs, []⟩ := by
  rw [process_listing_eq, h]

/-- C6: when the dispatched extraction yields a non-empty title and a
non-empty image URL list, and folder setup (folder creation and the
provenance write) succeeds, `process_listing` returns `true` and counts the
listing as successful — regardless of the download environments `env.dl`,
i.e. of how many individual image downloads fail (including non-image
responses), since `env` (and in particular every per-image outcome) is
universally quantified. -/
theorem C6_listing_success (env : ListingEnv) (st : Stats) (fs : List (List Char))
    (t : List Char) (urls : List (List Char))
    (hext : extractionOf env = some (some t, urls))
    (ht : t ≠ []) (hurls : urls ≠ [])
    (hfolder : env.folderOk = true) (hsrc : env.srcWriteOk = true) :
    (process_listing env st fs).ok = true ∧
    (process_listing env st fs).stats.successful_listings = st.successful_listings + 1 ∧
    (process_listing env st fs).stats.failed_listings = st.failed_listings := by
  rw [process_listing_of_extraction env st fs (some t, urls) hext]
  simp only [processExtracted]
  rw [if_neg (by simp [ht, hurls]), if_neg (by simp [hfolder]), if_neg (by simp [hsrc])]
  refine ⟨rfl, ?_, ?_⟩
  · simpa using (runDownloads_listing_counters urls env.dl
      (pathJoin env.baseDir (sanitize_filename t)) (sanitize_filename t) 1 st _).1
  · simpa using (runDownloads_listing_counters urls env.dl
      (pathJoin env.baseDir (sanitize_filename t)) (sanitize_filename t) 1 st _).2

theorem C6_witness :
    (process_listing ⟨"www.ebay.com".toList, "u".toList,
        some ⟨some "A".toList, none, 0, [], ["x.jpg".toList], none, none⟩, none, id,
        "base".toList, true, true, fun _ => ⟨.err, true, true⟩⟩ ⟨5, 6, 7, 8⟩ []).ok = true ∧
    (process_listing ⟨"www.ebay.com".toList, "u".toList,
        some ⟨some "A".toList, none, 0, [], ["x.jpg".toList], none, none⟩, none, id,
        "base".toList, true, true, fun _ => ⟨.err, true, true⟩⟩ ⟨5, 6, 7, 8⟩
      []).stats.successful_listings = 6 ∧
    (process_listing ⟨"www.ebay.com".toList, "u".toList,
        some ⟨some "A".toList, none, 0, [], ["x.jpg".toList], none, none⟩, none, id,
        "base".toList, true, true, fun _ => ⟨.err, true, true⟩⟩ ⟨5, 6, 7, 8⟩
      []).stats.failed_listings = 6 :=
  C6_listing_success _ ⟨5, 6, 7, 8⟩ [] "A".toList ["x.jpg".toList] (by decide)
    (by decide) (by decide) rfl rfl

/-- C7: an exception while fetching or parsing the listing page (modelled by
the absent page) is caught by both site extractors and reported as
`(None, [])`. -/
theorem C7_extraction_failure :
    scrape_ebay_listing none = (none, []) ∧
    ∀ join : List Char → List Char, scrape_swappa_listing join none = (none, []) :=
  ⟨rfl, fun _ => rfl⟩

/-- C8: on the success path the orchestrator invokes `download_image` once
per extracted URL, sequentially in extraction order, passing the sanitized
title as filename base and a 1-based index; and for every image response the
downloader's target filename is `{filename_base}_{index}.{ext}` with the
extension derived from the content type. -/
theorem C8_download_invocations (env : ListingEnv) (st : Stats) (fs : List (List Char))
    (t : List Char) (urls : List (List Char))
    (hext : extractionOf env = some (some t, urls))
    (ht : t ≠ []) (hurls : urls ≠ [])
    (hfolder : env.folderOk = true) (hsrc : env.srcWriteOk = true) :
    (process_listing env st fs).calls
      = (urls.enumFrom 1).map (fun pr =>
          ⟨pr.2, pathJoin env.baseDir (sanitize_filename t), sanitize_filename t, pr.1⟩) ∧
    (∀ (d : DownloadEnv) (u folder fb : List Char) (i : Nat) (st' : Stats)
        (fs' : List (List Char)) (resp : ImageResponse),
      d.fetch = .ok resp → "image/".toList <+: resp.contentType →
      (download_image d u folder fb i st' fs').target
        = some (pathJoin folder (fb ++ '_' :: natStr i ++ extFor resp.contentType))) := by
  constructor
  · rw [process_listing_of_extraction env st fs (some t, urls) hext]
    simp only [processExtracted]
    rw [if_neg (by simp [ht, hurls]), if_neg (by simp [hfolder]), if_neg (by simp [hsrc])]
    exact runDownloads_calls urls env.dl (pathJoin env.baseDir (sanitize_filename t))
      (sanitize_filename t) 1 st _
  · intro d u folder fb i st' fs' resp hf hct
    exact download_image_target d u folder fb i st' fs' resp hf hct

theorem C8_witness :
    (process_listing ⟨"m.swappa.com".toList, "u".toList, none,
        some ⟨some "B".toList, none, 0, ["g1.jpg".toList, "g2.jpg".toList], [], none, none⟩, id,
        "base".toList, true, true, fun _ => ⟨.err, true, true⟩⟩ ⟨0, 0, 0, 0⟩ []).calls
      = ((["g1.jpg".toList, "g2.jpg".toList].enumFrom 1).map (fun pr =>
          ⟨pr.2, pathJoin "base".toList (sanitize_filename "B".toList),
            sanitize_filename "B".toList, pr.1⟩)) ∧
    (download_image ⟨.ok ⟨"image/gif".toList⟩, true, true⟩ "u".toList "f".toList "B".toList 1
        ⟨0, 0, 0, 0⟩ []).target
      = some (pathJoin "f".toList ("B".toList ++ '_' :: natStr 1 ++ extFor "image/gif".toList)) :=
  ⟨(C8_download_invocations _ ⟨0, 0, 0, 0⟩ [] "B".toList ["g1.jpg".toList, "g2.jpg".toList]
      (by decide) (by decide) (by decide) rfl rfl).1,
    (C8_download_invocations ⟨"m.swappa.com".toList, "u".toList, none,
        some ⟨some "B".toList, none, 0, ["g1.jpg".toList, "g2.jpg".toList], [], none, none⟩, id,
        "base".toList, true, true, fun _ => ⟨.err, true, true⟩⟩ ⟨0, 0, 0, 0⟩ [] "B".toList
      ["g1.jpg".toList, "g2.jpg".toList] (by decide) (by decide) (by decide) rfl rfl).2
      ⟨.ok ⟨"image/gif".toList⟩, true, true⟩ "u".toList "f".toList "B".toList 1
      ⟨0, 0, 0, 0⟩ [] ⟨"image/gif".toList⟩ rfl (by decide)⟩

/-- C9: `normalize_image_url` is idempotent on every URL string; the
hypothesis `'\n' ∉ u` encodes "URL string" (URLs contain no control
characters — with an embedded newline Python's `$` anchor would make the
query strip non-idempotent, but such strings are not URLs). -/
theorem C9_normalize_idempotent (u : List Char) (h : '\n' ∉ u) :
    normalize_image_url (normalize_image_url u) = normalize_image_url u :=
  normalize_idem u h

theorem C9_witness :
    normalize_image_url (normalize_image_url "http://a.com/img/s-l500.jpg?cb=7".toList)
      = normalize_image_url "http://a.com/img/s-l500.jpg?cb=7".toList :=
  C9_normalize_idempotent "http://a.com/img/s-l500.jpg?cb=7".toList (by decide)

/-- C10: every `process_listing` call increments exactly one of the two
listing counters, and the incremented counter matches the returned boolean;
the embedding is a total function, mirroring the `except` handler that lets
no exception escape the call. -/
theorem C10_listing_counters (env : ListingEnv) (st : Stats) (fs : List (List Char)) :
    ((process_listing env st fs).ok = true →
      (process_listing env st fs).stats.successful_listings = st.successful_listings + 1 ∧
      (process_listing env st fs).stats.failed_listings = st.failed_listings) ∧
    ((process_listing env st fs).ok = false →
      (process_listing env st fs).stats.failed_listings = st.failed_listings + 1 ∧
      (process_listing env st fs).stats.successful_listings = st.successful_listings) := by
  cases hext : extractionOf env with
  | none =>
    rw [process_listing_of_unsupported env st fs hext]
    exact ⟨fun h => absurd h (by simp), fun _ => ⟨rfl, rfl⟩⟩
  | some res =>
    rw [process_listing_of_extraction env st fs res hext]
    exact processExtracted_counters env st fs res

theorem C10_witness :
    (process_listing ⟨"unknown.example.org".toList, "u".toList, none, none, id,
        "base".toList, true, true, fun _ => ⟨.err, true, true⟩⟩ ⟨3, 4, 5, 6⟩
      []).stats.failed_listings = 5 ∧
    (process_listing ⟨"unknown.example.org".toList, "u".toList, none, none, id,
        "base".toList, true, true, fun _ => ⟨.err, true, true⟩⟩ ⟨3, 4, 5, 6⟩
      []).stats.successful_listings = 3 :=
  (C10_listing_counters ⟨"unknown.example.org".toList, "u".toList, none, none, id,
      "base".toList, true, true, fun _ => ⟨.err, true, true⟩⟩ ⟨3, 4, 5, 6⟩ []).2 (by decide)

end Scraper
